import Mathlib

/-!
# Verification of the Rcpp utility snippets (hadley/adv-r, `cpp/` and `extras/cpp/`)

Shallow embedding of the C++ functions referenced by the specification, and
proofs (or refutations) of the spec's claims about them.

Conventions of the embedding:
* `NumericVector` elements are modelled as `ℚ` (exact arithmetic; the spec's
  claims are about values and control flow, not rounding).  Where R's `NA`
  and infinities matter (`range.cpp`) a dedicated inductive type `RD` models
  the relevant IEEE values.
* `IntegerVector` elements are modelled as `ℤ`.
* `std::set` / `std::tr1::unordered_set` are modelled as duplicate-free lists;
  `insert`'s returned `.second` flag is the `Bool` component of `setInsertInt`.
* Out-of-bounds vector reads and non-finite division results are fallible:
  the embedding returns `Option _` there, with `none` for the invalid case.
-/

namespace AdvR

/-! ## `cpp/duplicated.cpp` -/

/-- `std::set<int>::insert`: returns the updated set and the `.second` member
of the result pair, which is `true` iff the value was newly inserted
(i.e. was NOT already present). -/
def setInsertInt (seen : List ℤ) (v : ℤ) : List ℤ × Bool :=
  if v ∈ seen then (seen, false) else (seen ++ [v], true)

/-- Loop body shared by `duplicated2` (iterator loop) and `duplicated4`
(indexed loop): for each element, `out` records `seen.insert(x[i]).second`. -/
def duplicatedGo (seen : List ℤ) (out : List Bool) : List ℤ → List Bool
  | [] => out
  | v :: rest =>
    let p := setInsertInt seen v
    duplicatedGo p.1 (out ++ [p.2]) rest

/-- `duplicated2` from `cpp/duplicated.cpp`: iterator loop writing
`seen.insert(*it).second` into the output. -/
def duplicated2 (x : List ℤ) : List Bool :=
  duplicatedGo [] [] x

/-- `duplicated4` from `cpp/duplicated.cpp`: indexed loop writing
`seen.insert(x[i]).second` into `out[i]`; element-for-element the same
computation as `duplicated2`. -/
def duplicated4 (x : List ℤ) : List Bool :=
  duplicatedGo [] [] x

/-! ## `cpp/find-interval.cpp` -/

/-- `std::upper_bound(first, last, v)`: position (as an index) of the first
element strictly greater than `v`; `length` when no such element exists.
This is the standard-specified result for the partitioned (sorted) inputs
the algorithm requires. -/
def upperBound (l : List ℚ) (v : ℚ) : ℕ :=
  l.findIdx (fun a => decide (v < a))

/-- `findInterval2` from `cpp/find-interval.cpp`: for each query the code
stores `std::distance(ubound, breaks.begin())`, i.e. `begin - ubound`,
the NEGATED index of the upper bound. -/
def findInterval2 (x breaks : List ℚ) : List ℤ :=
  x.map (fun v => (0 : ℤ) - upperBound breaks v)

/-- `findInterval3` from `cpp/find-interval.cpp`: same computation as
`findInterval2` with the iterators hoisted out of the loop; it stores
`std::distance(ubound, breaks_it)` with `breaks_it = breaks.begin()`. -/
def findInterval3 (x breaks : List ℚ) : List ℤ :=
  x.map (fun v => (0 : ℤ) - upperBound breaks v)

/-! ## `cpp/in.cpp` -/

/-- `std::tr1::unordered_set<double>` built by repeated `insert`, modelled as a
duplicate-free list (insertion order is irrelevant to every claim proved
about it). -/
def setInsertQ (s : List ℚ) (v : ℚ) : List ℚ :=
  if v ∈ s then s else s ++ [v]

/-- The set of the elements of `table` (built by `in1`'s explicit insert loop
and by the range constructor used in `in2`/`in3`). -/
def setOfList (t : List ℚ) : List ℚ :=
  t.foldl setInsertQ []

/-- `in1` from `cpp/in.cpp`: `*out_it = (set.count(*it) == 1)`. -/
def in1 (x table : List ℚ) : List Bool :=
  let s := setOfList table
  x.map (fun v => decide (s.count v = 1))

/-- `in2` from `cpp/in.cpp`: `*out_it = set.count(*it)` — the count (0 or 1)
converted to a logical, i.e. `true` iff nonzero. -/
def in2 (x table : List ℚ) : List Bool :=
  let s := setOfList table
  x.map (fun v => decide (s.count v ≠ 0))

/-- `in3` from `cpp/in.cpp`: `*out_it = set.find(*x_it) != set_end` —
membership. -/
def in3 (x table : List ℚ) : List Bool :=
  let s := setOfList table
  x.map (fun v => decide (v ∈ s))

/-! ## `cpp/rle.cpp` -/

/-- Loop of `rle2`: state is the current run value `prev`, the write index
`i` into `lengths` (the code does `lengths[i]++`), and the accumulated
`lengths`/`values` vectors. -/
def rle2Go (prev : ℚ) (i : ℕ) (lengths : List ℕ) (values : List ℚ) :
    List ℚ → List ℕ × List ℚ
  | [] => (lengths, values)
  | v :: rest =>
    if prev = v then
      rle2Go prev i (lengths.set i (lengths.getD i 0 + 1)) values rest
    else
      rle2Go v (i + 1) (lengths ++ [1]) (values ++ [v]) rest

/-- `rle2` from `cpp/rle.cpp`.  The code unconditionally reads `x[0]` to
initialise `prev`; on an empty vector that read is out of bounds (and the
subsequent `x.begin() + 1 != x.end()` loop is ill-formed), so the empty
case is modelled as `none`.  For non-empty input it scans from the second
element, incrementing the last run length on equality and opening a new
`(value, 1)` run otherwise. -/
def rle2 : List ℚ → Option (List ℕ × List ℚ)
  | [] => none
  | x0 :: rest => some (rle2Go x0 0 [1] [x0] rest)

/-- Expansion of a run-length encoding: repeat each value by its run length
and concatenate, in order. -/
def expandRLE (e : List ℕ × List ℚ) : List ℚ :=
  (List.zipWith (fun (n : ℕ) (v : ℚ) => List.replicate n v) e.1 e.2).flatten

/-! ## `extras/cpp/var.cpp` -/

/-- One iteration of the Welford loop in `var1`:
`delta = x[i] - mu; mu += delta / (i + 1); m2 += delta * (x[i] - mu)`
(the second `x[i] - mu` reads the updated `mu`). -/
def wStep (mu m2 x : ℚ) (i : ℕ) : ℚ × ℚ :=
  let delta := x - mu
  let mu' := mu + delta / ((i : ℚ) + 1)
  (mu', m2 + delta * (x - mu'))

/-- The Welford loop of `var1`, carrying `(mu, m2)` and the 0-based loop
index `i`. -/
def welfordGo : List ℚ → ℚ → ℚ → ℕ → ℚ × ℚ
  | [], mu, m2, _ => (mu, m2)
  | x :: rest, mu, m2, i =>
    welfordGo rest (wStep mu m2 x i).1 (wStep mu m2 x i).2 (i + 1)

/-- `var1` from `extras/cpp/var.cpp` (the compiling version of the two
`var1` listings): Welford loop followed by `return m2 / (n - 1)`.
When the integer denominator `n - 1` is zero the IEEE division produces a
non-finite value (NaN here: `m2` is exactly `0` when `n = 1`), never a
numeric variance; the embedding returns `none` for that case. -/
def var1 (x : List ℚ) : Option ℚ :=
  let n := x.length
  let m2 := (welfordGo x 0 0 0).2
  if ((n : ℚ) - 1) = 0 then none else some (m2 / ((n : ℚ) - 1))

/-- Mean of a list of rationals (`List.sum / length`; `0` for the empty
list, matching `ℚ`'s division-by-zero convention). -/
def listMean (x : List ℚ) : ℚ :=
  x.sum / x.length

/-- Sum of squared deviations from the mean. -/
def ssd (x : List ℚ) : ℚ :=
  (x.map (fun v => (v - listMean x) ^ 2)).sum

/-- Modelled from the spec: the classical two-pass sample variance
`sum((x_i - mean)^2) / (n - 1)` that Welford's single pass is claimed to
match exactly. -/
def twoPassVar (x : List ℚ) : ℚ :=
  ssd x / ((x.length : ℚ) - 1)

/-! ## `cpp/range.cpp` -/

/-- The R double values relevant to `range2`: `NA_REAL`, the two infinities
`R_PosInf`/`R_NegInf`, and finite numbers. -/
inductive RD where
  | NA : RD
  | PInf : RD
  | NInf : RD
  | Num : ℚ → RD
deriving DecidableEq, Repr

/-- IEEE `<` on `RD` values: every comparison involving `NA` (a NaN payload)
is false; otherwise `NInf < Num _ < PInf` with `ℚ`'s order on finite
numbers. -/
def rlt : RD → RD → Bool
  | RD.NA, _ => false
  | _, RD.NA => false
  | RD.NInf, RD.NInf => false
  | RD.NInf, _ => true
  | RD.PInf, _ => false
  | RD.Num _, RD.PInf => true
  | RD.Num a, RD.Num b => decide (a < b)
  | RD.Num _, RD.NInf => false

/-- IEEE `≤` on `RD` values (false whenever `NA` is involved). -/
def rdle : RD → RD → Bool
  | RD.NA, _ => false
  | _, RD.NA => false
  | RD.NInf, _ => true
  | _, RD.PInf => true
  | RD.PInf, _ => false
  | RD.Num a, RD.Num b => decide (a ≤ b)
  | RD.Num _, RD.NInf => false

/-- Loop of `range2`, carrying the accumulator pair `out = (min, max)`.
With `na_rm` false, hitting `NA` overwrites both accumulators with `NA`
and returns immediately; otherwise the element is folded in with the two
IEEE comparisons `x[i] < out[0]` and `x[i] > out[1]`. -/
def range2Go (na_rm : Bool) : List RD → RD × RD → RD × RD
  | [], out => out
  | v :: rest, (lo, hi) =>
    if !na_rm && v = RD.NA then (RD.NA, RD.NA)
    else range2Go na_rm rest
      ((if rlt v lo then v else lo), (if rlt hi v then v else hi))

/-- `range2` from `cpp/range.cpp`: accumulators start at
`(R_PosInf, R_NegInf)` and the vector is scanned once. -/
def range2 (x : List RD) (na_rm : Bool) : RD × RD :=
  range2Go na_rm x (RD.PInf, RD.NInf)

/-! ## `cpp/tabulate.cpp` -/

/-- Loop body of `tabulate1`: `pos = x[i] - 1`, and `counts[pos]++` runs only
under the guard `pos < max && pos >= 0`. -/
def tabStep (max : ℕ) (counts : List ℕ) (v : ℤ) : List ℕ :=
  let pos : ℤ := v - 1
  if pos < (max : ℤ) ∧ 0 ≤ pos then
    counts.set pos.toNat (counts.getD pos.toNat 0 + 1)
  else counts

/-- `tabulate1` from `cpp/tabulate.cpp`: `counts` is zero-initialised with
length `max` and the input is folded through `tabStep`. -/
def tabulate1 (x : List ℤ) (max : ℕ) : List ℕ :=
  x.foldl (tabStep max) (List.replicate max 0)

/-! ## `cpp/tapply.cpp` -/

/-- `std::map<int, std::vector<double>>::operator[]` followed by
`push_back(v)`: walk the key-sorted association list; on the matching key
append `v` to that group, otherwise insert a fresh singleton group at the
position that keeps the keys ascending. -/
def mapInsert (k : ℤ) (v : ℚ) : List (ℤ × List ℚ) → List (ℤ × List ℚ)
  | [] => [(k, [v])]
  | (k', g) :: rest =>
    if k = k' then (k', g ++ [v]) :: rest
    else if k < k' then (k, [v]) :: (k', g) :: rest
    else (k', g) :: mapInsert k v rest

/-- The grouping loop of `tapply3`: `groups[*i_it].push_back(*x_it)` over the
paired (key, value) stream. -/
def buildGroups (l : List (ℤ × ℚ)) : List (ℤ × List ℚ) :=
  l.foldl (fun m p => mapInsert p.1 p.2 m) []

/-- `tapply3` from `cpp/tapply.cpp`: build the ordered group table, then
apply `fun` to each group's value vector in map (ascending-key) order.
The injected R function returning a one-element vector is modelled as
`f : List ℚ → ℚ`. -/
def tapply3 (x : List ℚ) (i : List ℤ) (f : List ℚ → ℚ) : List ℚ :=
  (buildGroups (i.zip x)).map (fun p => f p.2)

/-- The values grouped under key `k` in a group table (the association-list
lookup, phrased totally: concatenation of the value lists of all entries
with key `k` — for the duplicate-free tables `buildGroups` produces this
is exactly the lookup, returning `[]` for an absent key). -/
def groupOf (k : ℤ) (m : List (ℤ × List ℚ)) : List ℚ :=
  (m.filterMap (fun p => if p.1 = k then some p.2 else none)).flatten

end AdvR

namespace AdvR

/-! ## Theorems: deduplication (C1) -/

/-- The seen-set argument only grows along `duplicatedGo`. -/
theorem duplicatedGo_out (seen : List ℤ) (out : List Bool) (x : List ℤ) :
    duplicatedGo seen out x = out ++ duplicatedGo seen [] x := by
  induction x generalizing seen out with
  | nil => simp [duplicatedGo]
  | cons v rest ih =>
    simp only [duplicatedGo]
    rw [ih _ (out ++ [(setInsertInt seen v).2]), ih _ ([] ++ [(setInsertInt seen v).2])]
    simp

/--
C1: the claim says `duplicated(x)[0] == false` for non-empty `x` (first
occurrence → `false`, repeats → `true`).  The code stores
`seen.insert(x[i]).second`, which is `true` exactly at first occurrences:
on `x = [1,1]` both `duplicated2` and `duplicated4` return `[true, false]`,
the element-wise negation of what the claim (and R's `duplicated`) requires;
in particular the first element maps to `true`, never `false`.
-/
theorem duplicated_first_is_true :
    duplicated2 [1, 1] = [true, false] ∧ duplicated4 [1, 1] = [true, false] := by
  constructor <;> decide

/-! ## Theorems: interval location (C2) -/

/-- Every element of a list is counted exactly once by the complementary
predicates `· ≤ q` and `q < ·`. -/
theorem countP_split_le_lt (q : ℚ) (l : List ℚ) :
    l.countP (fun a => decide (a ≤ q)) + l.countP (fun a => decide (q < a)) = l.length := by
  induction l with
  | nil => simp
  | cons a t ih =>
    simp only [List.countP_cons, List.length_cons]
    by_cases h : a ≤ q
    · simp [h, not_lt.mpr h]
      omega
    · simp [h, not_le.mp h]
      omega

/-- On a `≤`-sorted list, the index of the first element strictly greater
than `v` equals the number of elements `≤ v`. -/
theorem upperBound_sorted_eq_countP (l : List ℚ) (hs : l.Sorted (· ≤ ·)) (v : ℚ) :
    upperBound l v = l.countP (fun a => decide (a ≤ v)) := by
  induction l with
  | nil => simp [upperBound]
  | cons a t ih =>
    rcases List.sorted_cons.mp hs with ⟨ha, ht⟩
    by_cases h : v < a
    · have hz : t.countP (fun a => decide (a ≤ v)) = 0 := by
        rw [List.countP_eq_zero]
        intro b hb
        simpa using not_le.mpr (lt_of_lt_of_le h (ha b hb))
      simp [upperBound, List.findIdx_cons, h, List.countP_cons, not_le.mp, hz,
        not_le_of_lt h]
    · have h' : a ≤ v := not_lt.mp h
      simp only [upperBound, List.findIdx_cons, List.countP_cons] at *
      simp [h, h', ih ht]

/--
C2 (counterexample): the claim asserts `interval_locate([3], [2,4,8]) = [2]`
(the count of breakpoints strictly greater than the query); the code stores
`std::distance(ubound, breaks.begin())` — the negated upper-bound index —
and returns `[-1]`.
-/
theorem findInterval_not_count_gt :
    ¬ (findInterval2 [3] [2, 4, 8] = [2]) := by
  decide

/--
C2 (amended): for every query sequence `x` and `≤`-sorted breakpoint sequence
`breaks`, `findInterval2` (and the identical `findInterval3`) maps each query
`q` to the count of breakpoints strictly greater than `q` MINUS the total
number of breakpoints — equivalently the negated count of breakpoints `≤ q` —
because the code computes `std::distance(ubound, breaks.begin())`, the
negation of the conventional interval index.  Concretely
`findInterval2 [3] [2,4,8] = [-1]`.
-/
theorem findInterval_negated_count (x breaks : List ℚ) (hs : breaks.Sorted (· ≤ ·)) :
    findInterval2 x breaks
      = x.map (fun q => (breaks.countP (fun a => decide (q < a)) : ℤ) - breaks.length)
    ∧ findInterval3 x breaks = findInterval2 x breaks
    ∧ findInterval2 [3] [2, 4, 8] = [-1] := by
  refine ⟨?_, rfl, by decide⟩
  unfold findInterval2
  apply List.map_congr_left
  intro q _
  rw [upperBound_sorted_eq_countP breaks hs q]
  have hsplit := countP_split_le_lt q breaks
  omega

/-- Witness for C2's amended theorem at the spec's concrete instance. -/
theorem findInterval_negated_count_witness :
    findInterval2 [3] [2, 4, 8]
      = [((([2, 4, 8] : List ℚ).countP (fun a => decide ((3:ℚ) < a)) : ℤ) - 3)] :=
  (findInterval_negated_count [3] [2, 4, 8] (by decide)).1

/-! ## Theorems: run-length encoding (C3) -/

/-- Setting the position just past `l` in `l ++ [c]` replaces `c`. -/
theorem set_last (l : List ℕ) (c x : ℕ) : (l ++ [c]).set l.length x = l ++ [x] := by
  induction l with
  | nil => rfl
  | cons a t ih => simp [List.set, ih]

/-- Reading the position just past `l` in `l ++ [c]` yields `c`. -/
theorem getD_last (l : List ℕ) (c : ℕ) : (l ++ [c]).getD l.length 0 = c := by
  induction l with
  | nil => rfl
  | cons a t ih => exact ih

/-- Expanding an encoding extended by one final run. -/
theorem expandRLE_append_single (l : List ℕ) (vs : List ℚ) (h : l.length = vs.length)
    (c : ℕ) (p : ℚ) :
    expandRLE (l ++ [c], vs ++ [p]) = expandRLE (l, vs) ++ List.replicate c p := by
  unfold expandRLE
  rw [List.zipWith_append _ _ _ _ _ h]
  simp

/-- Invariant of the `rle2` loop: expanding the final encoding appends the
unscanned remainder of the input to the expansion of the current state. -/
theorem rle2Go_expand (rest : List ℚ) :
    ∀ (prev : ℚ) (l : List ℕ) (c : ℕ) (vs : List ℚ), l.length = vs.length →
      expandRLE (rle2Go prev l.length (l ++ [c]) (vs ++ [prev]) rest)
        = expandRLE (l ++ [c], vs ++ [prev]) ++ rest := by
  induction rest with
  | nil => intro prev l c vs h; simp [rle2Go]
  | cons v rest ih =>
    intro prev l c vs h
    by_cases hpv : prev = v
    · simp only [rle2Go]
      rw [if_pos hpv]
      subst hpv
      rw [getD_last, set_last]
      rw [ih prev l (c + 1) vs h]
      rw [expandRLE_append_single l vs h, expandRLE_append_single l vs h,
        List.replicate_succ']
      simp
    · simp only [rle2Go, if_neg hpv]
      have h' : (l ++ [c]).length = (vs ++ [prev]).length := by simp [h]
      have hlen : l.length + 1 = (l ++ [c]).length := by simp
      rw [hlen, ih v (l ++ [c]) 1 (vs ++ [prev]) h']
      rw [expandRLE_append_single (l ++ [c]) (vs ++ [prev]) h']
      simp

/--
C3 (counterexample): the claim says the empty sequence yields an empty
encoding, but `rle2` unconditionally reads `x[0]`, which is out of bounds on
an empty vector; there is no encoding of the empty input (modelled `none`),
in particular not the empty one.
-/
theorem rle2_empty_cex :
    rle2 ([] : List ℚ) = none ∧ rle2 ([] : List ℚ) ≠ some ([], []) := by
  constructor <;> simp [rle2]

/--
C3 (amended): for every NON-EMPTY input sequence, expanding the run-length
encoding produced by `rle2` (repeating each value by its run length and
concatenating, in order) reconstructs the input exactly, and a
single-element sequence yields exactly one pair of length 1; the empty
sequence is not handled (the code reads `x[0]` out of bounds, so no
encoding is produced).
-/
theorem rle2_expand_roundtrip :
    (∀ (x0 : ℚ) (rest : List ℚ), (rle2 (x0 :: rest)).map expandRLE = some (x0 :: rest))
    ∧ (∀ a : ℚ, rle2 [a] = some ([1], [a]))
    ∧ rle2 ([] : List ℚ) = none := by
  refine ⟨?_, fun a => rfl, rfl⟩
  intro x0 rest
  have h := rle2Go_expand rest x0 [] 1 [] rfl
  simp only [List.nil_append, List.length_nil] at h
  have h2 : expandRLE ([1], [x0]) ++ rest = x0 :: rest := by simp [expandRLE]
  simp only [rle2, Option.map_some']
  rw [h, h2]

/-! ## Theorems: variance error handling (C4) -/

/--
C4 (counterexample): the claim demands failure for every input of length
`n < 2`, but on the empty sequence the code returns `m2 / (n - 1) = 0 / (-1)
= -0.0`, an ordinary numeric value (`some 0` in the embedding), not an error
and not NaN.
-/
theorem var1_empty_numeric :
    var1 ([] : List ℚ) = some 0 ∧ var1 ([] : List ℚ) ≠ none := by
  have h : var1 ([] : List ℚ) = some 0 := by norm_num [var1, welfordGo]
  rw [h]
  simp

/--
C4 (amended): only length 1 fails: on a single-element sequence the code
divides `m2 = 0` by `n - 1 = 0`, producing NaN (`none`), while on the empty
sequence it divides `0` by `-1` and returns the numeric value `-0.0`
(`some 0`).
-/
theorem var1_singleton_fails :
    (∀ a : ℚ, var1 [a] = none) ∧ var1 ([] : List ℚ) = some 0 := by
  constructor
  · intro a
    norm_num [var1]
  · norm_num [var1, welfordGo]

/-! ## Theorems: Welford variance = two-pass variance (C6) -/

/-- Unrolling the Welford loop from the right. -/
theorem welfordGo_append (l : List ℚ) (y mu m2 : ℚ) (k : ℕ) :
    welfordGo (l ++ [y]) mu m2 k
      = wStep (welfordGo l mu m2 k).1 (welfordGo l mu m2 k).2 y (k + l.length) := by
  induction l generalizing mu m2 k with
  | nil => simp [welfordGo]
  | cons x l ih =>
    simp only [List.cons_append, welfordGo, List.append_eq, List.length_cons]
    rw [ih]
    have he : k + 1 + l.length = k + (l.length + 1) := by omega
    rw [he]

/-- Shifting the centre of a sum of squared deviations. -/
theorem sq_sum_shift (p : List ℚ) (a b : ℚ) :
    (p.map (fun v => (v - b) ^ 2)).sum
      = (p.map (fun v => (v - a) ^ 2)).sum + 2 * (a - b) * (p.sum - p.length * a)
        + p.length * (a - b) ^ 2 := by
  induction p with
  | nil => simp
  | cons x p ih =>
    simp only [List.map_cons, List.sum_cons, List.length_cons]
    rw [ih]
    push_cast
    ring

/-- The Welford loop started from `(0, 0, 0)` computes the running mean and
the sum of squared deviations of the processed elements. -/
theorem welfordGo_spec (p : List ℚ) :
    welfordGo p 0 0 0 = (listMean p, ssd p) := by
  induction p using List.reverseRecOn with
  | nil => norm_num [welfordGo, listMean, ssd]
  | append_singleton p y ih =>
    rw [welfordGo_append, ih]
    rcases eq_or_ne p [] with rfl | hne
    · norm_num [wStep, listMean, ssd]
    · have hm : (p.length : ℚ) ≠ 0 := by
        simpa [List.length_eq_zero] using hne
      have hm1 : ((p.length : ℚ) + 1) ≠ 0 := by positivity
      have hMean : listMean (p ++ [y]) = (p.sum + y) / ((p.length : ℚ) + 1) := by
        simp only [listMean, List.sum_append, List.length_append, List.sum_cons,
          List.sum_nil, List.length_cons, List.length_nil]
        push_cast
        ring_nf
      have hmu : listMean p + (y - listMean p) / (((0 + p.length : ℕ) : ℚ) + 1)
          = listMean (p ++ [y]) := by
        rw [hMean]
        simp only [listMean, Nat.zero_add]
        field_simp
        ring
      have hssd : ssd p + (y - listMean p) * (y - listMean (p ++ [y]))
          = ssd (p ++ [y]) := by
        have hS : p.sum - (p.length : ℚ) * listMean p = 0 := by
          simp only [listMean]
          field_simp
        have hshift := sq_sum_shift p (listMean p) (listMean (p ++ [y]))
        simp only [ssd, List.map_append, List.sum_append, List.map_cons,
          List.map_nil, List.sum_cons, List.sum_nil]
        rw [hshift, hS, hMean]
        simp only [listMean]
        field_simp
        ring
      simp only [wStep]
      rw [Prod.mk.injEq]
      refine ⟨hmu, ?_⟩
      rw [hmu, hssd]

/--
C6: for every input of length `n ≥ 2`, the Welford single pass of `var1`
followed by `m2 / (n - 1)` computes exactly the classical two-pass sample
variance `sum((x_i - mean)^2) / (n - 1)` (exact rational arithmetic), and on
the spec's instance `x = [2,4,4,4,5,5,7,9]` both equal `32/7 ≈ 4.571`.
-/
theorem var1_eq_twoPassVar (x : List ℚ) (h : 2 ≤ x.length) :
    var1 x = some (twoPassVar x)
    ∧ var1 [2, 4, 4, 4, 5, 5, 7, 9] = some (32 / 7)
    ∧ twoPassVar [2, 4, 4, 4, 5, 5, 7, 9] = 32 / 7 := by
  refine ⟨?_, by norm_num [var1, welfordGo, wStep],
    by norm_num [twoPassVar, ssd, listMean]⟩
  have hd : ((x.length : ℚ) - 1) ≠ 0 := by
    have h2 : (2 : ℚ) ≤ (x.length : ℚ) := by exact_mod_cast h
    intro hc
    rw [sub_eq_zero] at hc
    rw [hc] at h2
    norm_num at h2
  simp [var1, welfordGo_spec, twoPassVar, hd]

/-- Witness for C6 at the spec's concrete instance. -/
theorem var1_eq_twoPassVar_witness :
    var1 [2, 4, 4, 4, 5, 5, 7, 9] = some (twoPassVar [2, 4, 4, 4, 5, 5, 7, 9]) :=
  (var1_eq_twoPassVar [2, 4, 4, 4, 5, 5, 7, 9] (by decide)).1

/-! ## Theorems: range with missing values (C5) and bounds (C9) -/

/-- With `na_rm = false`, the scan returns `(NA, NA)` as soon as any `NA`
remains in the unscanned input, whatever the accumulators hold. -/
theorem range2Go_na (l : List RD) :
    ∀ lo hi, RD.NA ∈ l → range2Go false l (lo, hi) = (RD.NA, RD.NA) := by
  induction l with
  | nil =>
    intro lo hi h
    simp at h
  | cons v rest ih =>
    intro lo hi h
    by_cases hv : v = RD.NA
    · simp [range2Go, hv]
    · have hr : RD.NA ∈ rest := by
        rcases List.mem_cons.mp h with h1 | h1
        · exact absurd h1.symm hv
        · exact h1
      simp [range2Go, hv, ih _ _ hr]

/--
C5: with `skip_missing = false`, any sequence containing the missing marker
yields `(missing, missing)`, and the scan is insensitive to everything after
the first missing marker: two inputs agreeing up to and including their first
`NA` produce identical results whatever their suffixes.
-/
theorem range2_na_short_circuit (x p s1 s2 : List RD) (hx : RD.NA ∈ x) :
    range2 x false = (RD.NA, RD.NA)
    ∧ range2 (p ++ RD.NA :: s1) false = range2 (p ++ RD.NA :: s2) false := by
  refine ⟨range2Go_na x _ _ hx, ?_⟩
  have h1 : range2 (p ++ RD.NA :: s1) false = (RD.NA, RD.NA) :=
    range2Go_na _ _ _ (by simp)
  have h2 : range2 (p ++ RD.NA :: s2) false = (RD.NA, RD.NA) :=
    range2Go_na _ _ _ (by simp)
  rw [h1, h2]

/-- Witness for C5 on a concrete input with a missing value. -/
theorem range2_na_short_circuit_witness :
    range2 [RD.Num 1, RD.NA] false = (RD.NA, RD.NA) :=
  (range2_na_short_circuit [RD.Num 1, RD.NA] [RD.Num 1] [RD.Num 2] [RD.Num 7]
    (by decide)).1

/-- `rdle` is reflexive away from `NA`. -/
theorem rdle_refl (a : RD) (ha : a ≠ RD.NA) : rdle a a = true := by
  cases a <;> simp_all [rdle]

/-- `rdle` is transitive. -/
theorem rdle_trans (a b c : RD) (hab : rdle a b = true) (hbc : rdle b c = true) :
    rdle a c = true := by
  cases a <;> cases b <;> cases c
  all_goals simp_all [rdle]
  all_goals linarith

/-- A strict IEEE comparison implies the non-strict one. -/
theorem rlt_rdle (a b : RD) (h : rlt a b = true) : rdle a b = true := by
  cases a <;> cases b
  all_goals simp_all [rlt, rdle]
  all_goals linarith

/-- Away from `NA` the IEEE comparisons are total: a failed `a < b` test
gives `b ≤ a`. -/
theorem not_rlt_rdle (a b : RD) (ha : a ≠ RD.NA) (hb : b ≠ RD.NA)
    (h : rlt a b = false) : rdle b a = true := by
  cases a <;> cases b <;> simp_all [rlt, rdle]

/-- Invariant of the `range2` scan with `na_rm = true` on `NA`-free input:
the final accumulators are `NA`-free, only move outward, and bound every
scanned element. -/
theorem range2Go_true_bounds (l : List RD) :
    ∀ lo hi, RD.NA ∉ l → lo ≠ RD.NA → hi ≠ RD.NA →
      (range2Go true l (lo, hi)).1 ≠ RD.NA
      ∧ (range2Go true l (lo, hi)).2 ≠ RD.NA
      ∧ rdle (range2Go true l (lo, hi)).1 lo = true
      ∧ rdle hi (range2Go true l (lo, hi)).2 = true
      ∧ ∀ v ∈ l, rdle (range2Go true l (lo, hi)).1 v = true
          ∧ rdle v (range2Go true l (lo, hi)).2 = true := by
  induction l with
  | nil =>
    intro lo hi _ hlo hhi
    exact ⟨hlo, hhi, rdle_refl lo hlo, rdle_refl hi hhi, by simp⟩
  | cons v rest ih =>
    intro lo hi hna hlo hhi
    have hv : v ≠ RD.NA := fun h => hna (h ▸ List.mem_cons_self v rest)
    have hrest : RD.NA ∉ rest := fun h => hna (List.mem_cons_of_mem v h)
    simp only [range2Go]
    rw [if_neg (by simp)]
    have hlo1 : (if rlt v lo then v else lo) ≠ RD.NA := by
      by_cases h : rlt v lo <;> simp [h, hv, hlo]
    have hhi1 : (if rlt hi v then v else hi) ≠ RD.NA := by
      by_cases h : rlt hi v <;> simp [h, hv, hhi]
    obtain ⟨h1, h2, h3, h4, h5⟩ := ih _ _ hrest hlo1 hhi1
    have hlole : rdle (if rlt v lo then v else lo) lo = true := by
      by_cases h : rlt v lo
      · simpa [h] using rlt_rdle v lo h
      · simpa [h] using rdle_refl lo hlo
    have hlov : rdle (if rlt v lo then v else lo) v = true := by
      by_cases h : rlt v lo
      · simpa [h] using rdle_refl v hv
      · simpa [h] using not_rlt_rdle v lo hv hlo (by simpa using h)
    have hhile : rdle hi (if rlt hi v then v else hi) = true := by
      by_cases h : rlt hi v
      · simpa [h] using rlt_rdle hi v h
      · simpa [h] using rdle_refl hi hhi
    have hvhi : rdle v (if rlt hi v then v else hi) = true := by
      by_cases h : rlt hi v
      · simpa [h] using rdle_refl v hv
      · simpa [h] using not_rlt_rdle hi v hhi hv (by simpa using h)
    refine ⟨h1, h2, rdle_trans _ _ _ h3 hlole, rdle_trans _ _ _ hhile h4, ?_⟩
    intro w hw
    rcases List.mem_cons.mp hw with rfl | hw'
    · exact ⟨rdle_trans _ _ _ h3 hlov, rdle_trans _ _ _ hvhi h4⟩
    · exact h5 w hw'

/--
C9: on a sequence free of missing values, every element lies between the two
components of `range2 x true` (in the IEEE order on R doubles), and the
accumulators start at `(+inf, -inf)`, so the empty sequence yields exactly
`(R_PosInf, R_NegInf)`.
-/
theorem range2_bounds (x : List RD) (hna : RD.NA ∉ x) :
    (∀ v ∈ x, rdle (range2 x true).1 v = true ∧ rdle v (range2 x true).2 = true)
    ∧ range2 ([] : List RD) true = (RD.PInf, RD.NInf) := by
  refine ⟨?_, rfl⟩
  exact (range2Go_true_bounds x RD.PInf RD.NInf hna (by decide) (by decide)).2.2.2.2

/-- Witness for C9 on a concrete `NA`-free input. -/
theorem range2_bounds_witness :
    rdle (range2 [RD.Num 3, RD.Num 1] true).1 (RD.Num 3) = true
    ∧ rdle (RD.Num 3) (range2 [RD.Num 3, RD.Num 1] true).2 = true :=
  (range2_bounds [RD.Num 3, RD.Num 1] (by decide)).1 (RD.Num 3) (by decide)

/-! ## Theorems: tabulate (C7) -/

/-- `getD` at the index just written by `set`. -/
theorem getD_set_self (l : List ℕ) :
    ∀ (k a : ℕ), k < l.length → (l.set k a).getD k 0 = a := by
  induction l with
  | nil =>
    intro k a h
    simp at h
  | cons b t ih =>
    intro k a h
    cases k with
    | zero => rfl
    | succ k =>
      have h' : k < t.length := by simpa [Nat.succ_lt_succ_iff] using h
      exact ih k a h'

/-- `getD` away from the index written by `set`. -/
theorem getD_set_ne (l : List ℕ) :
    ∀ (k j a : ℕ), k ≠ j → (l.set k a).getD j 0 = l.getD j 0 := by
  induction l with
  | nil =>
    intro k j a _
    simp [List.set]
  | cons b t ih =>
    intro k j a hkj
    cases k with
    | zero =>
      cases j with
      | zero => exact absurd rfl hkj
      | succ j => rfl
    | succ k =>
      cases j with
      | zero => rfl
      | succ j => exact ih k j a (fun h => hkj (by rw [h]))

/-- `getD` of the zero-initialised counts vector. -/
theorem getD_replicate_zero (n : ℕ) :
    ∀ j : ℕ, (List.replicate n (0 : ℕ)).getD j 0 = 0 := by
  induction n with
  | zero => intro j; rfl
  | succ n ih =>
    intro j
    cases j with
    | zero => rfl
    | succ j => exact ih j

/-- Invariant of the `tabulate1` fold: the counts vector keeps its length,
and each slot `j` accumulates the number of scanned keys equal to `j + 1`. -/
theorem tabulate1_go (max : ℕ) (x : List ℤ) :
    ∀ counts : List ℕ, counts.length = max →
      (x.foldl (tabStep max) counts).length = max
      ∧ ∀ j : ℕ, j < max →
        (x.foldl (tabStep max) counts).getD j 0
          = counts.getD j 0 + x.countP (fun v => decide (v = (j : ℤ) + 1)) := by
  induction x with
  | nil =>
    intro counts h
    exact ⟨h, fun j _ => by simp⟩
  | cons v x ih =>
    intro counts h
    simp only [List.foldl_cons]
    have hstep : (tabStep max counts v).length = max := by
      unfold tabStep
      dsimp only
      split
      · simpa using h
      · exact h
    obtain ⟨hl, he⟩ := ih (tabStep max counts v) hstep
    refine ⟨hl, fun j hj => ?_⟩
    rw [he j hj]
    by_cases hin : (v - 1 < (max : ℤ) ∧ 0 ≤ v - 1)
    · by_cases hj' : (v - 1).toNat = j
      · have hv : v = (j : ℤ) + 1 := by omega
        unfold tabStep
        dsimp only
        rw [if_pos hin, hj', getD_set_self _ _ _ (by omega)]
        simp only [List.countP_cons, hv, decide_eq_true_eq]
        simp
        omega
      · have hv : v ≠ (j : ℤ) + 1 := by omega
        unfold tabStep
        dsimp only
        rw [if_pos hin, getD_set_ne _ _ _ _ hj']
        simp [List.countP_cons, hv]
    · have hv : v ≠ (j : ℤ) + 1 := by omega
      unfold tabStep
      dsimp only
      rw [if_neg hin]
      simp [List.countP_cons, hv]

/--
C7: `tabulate1 x max` has length `max`; its slot for key `k ∈ [1, max]`
(1-based) holds the number of occurrences of `k` in `x`; keys outside
`[1, max]` (including non-positive ones) are silently dropped — the result
is unchanged when the input is pre-filtered to the in-range keys, and no
error is possible; concretely `tabulate1 [1,3,3,10] 5 = [1,0,2,0,0]`.
-/
theorem tabulate1_counts (x : List ℤ) (max : ℕ) :
    (tabulate1 x max).length = max
    ∧ (∀ k : ℕ, 1 ≤ k → k ≤ max →
        (tabulate1 x max).getD (k - 1) 0 = x.countP (fun v => decide (v = (k : ℤ))))
    ∧ tabulate1 x max
        = tabulate1 (x.filter fun v => decide (1 ≤ v) && decide (v ≤ (max : ℤ))) max
    ∧ tabulate1 [1, 3, 3, 10] 5 = [1, 0, 2, 0, 0] := by
  obtain ⟨hl, he⟩ := tabulate1_go max x (List.replicate max 0) (by simp)
  refine ⟨hl, ?_, ?_, by decide⟩
  · intro k h1 hk
    have hj : k - 1 < max := by omega
    have hcast : ((k - 1 : ℕ) : ℤ) + 1 = (k : ℤ) := by omega
    rw [tabulate1, he (k - 1) hj, getD_replicate_zero]
    simp only [hcast, Nat.zero_add]
  · obtain ⟨hl2, he2⟩ :=
      tabulate1_go max (x.filter fun v => decide (1 ≤ v) && decide (v ≤ (max : ℤ)))
        (List.replicate max 0) (by simp)
    apply List.ext_getElem (by rw [tabulate1, tabulate1, hl, hl2])
    intro j hj1 hj2
    have hjm : j < max := by
      rw [tabulate1] at hj1
      omega
    have hcf : (x.filter fun v => decide (1 ≤ v) && decide (v ≤ (max : ℤ))).countP
          (fun v => decide (v = (j : ℤ) + 1))
        = x.countP (fun v => decide (v = (j : ℤ) + 1)) := by
      rw [List.countP_filter]
      apply List.countP_congr
      intro a _
      by_cases hav : a = (j : ℤ) + 1
      · have hr1 : (1 : ℤ) ≤ (j : ℤ) + 1 := by omega
        have hr2 : ((j : ℤ) + 1) ≤ (max : ℤ) := by omega
        simp [hav, hr1, hr2]
      · simp [hav]
    rw [← List.getD_eq_getElem _ 0 hj1, ← List.getD_eq_getElem _ 0 hj2]
    rw [tabulate1, tabulate1, he j hjm, he2 j hjm, hcf]

/-- Witness for C7 at the spec's concrete instance, key `k = 3`. -/
theorem tabulate1_counts_witness :
    (tabulate1 [1, 3, 3, 10] 5).getD (3 - 1) 0
      = List.countP (fun v => decide (v = ((3 : ℕ) : ℤ))) [1, 3, 3, 10] :=
  (tabulate1_counts [1, 3, 3, 10] 5).2.1 3 (by decide) (by decide)

/-! ## Theorems: grouped reduction (C8) -/

/-- The keys after a `mapInsert` are the old keys plus the inserted one. -/
theorem mapInsert_keys_mem (k : ℤ) (v : ℚ) (m : List (ℤ × List ℚ)) :
    ∀ a : ℤ, a ∈ (mapInsert k v m).map Prod.fst ↔ a = k ∨ a ∈ m.map Prod.fst := by
  induction m with
  | nil =>
    intro a
    simp [mapInsert]
  | cons p m ih =>
    intro a
    obtain ⟨k₀, g⟩ := p
    by_cases h1 : k = k₀
    · subst h1
      simp [mapInsert]
    · by_cases h2 : k < k₀
      · simp [mapInsert, h1, h2]
      · simp [mapInsert, h1, h2, ih]
        tauto

/-- `mapInsert` keeps the keys strictly sorted. -/
theorem mapInsert_keys_sorted (k : ℤ) (v : ℚ) (m : List (ℤ × List ℚ))
    (hs : (m.map Prod.fst).Sorted (· < ·)) :
    ((mapInsert k v m).map Prod.fst).Sorted (· < ·) := by
  induction m with
  | nil => simp [mapInsert]
  | cons p m ih =>
    obtain ⟨k₀, g⟩ := p
    simp only [List.map_cons, List.sorted_cons] at hs
    obtain ⟨hall, hm⟩ := hs
    by_cases h1 : k = k₀
    · subst h1
      simp only [mapInsert]
      rw [if_pos trivial]
      simp only [List.map_cons, List.sorted_cons]
      exact ⟨hall, hm⟩
    · by_cases h2 : k < k₀
      · simp only [mapInsert, if_neg h1, if_pos h2, List.map_cons, List.sorted_cons]
        refine ⟨?_, hall, hm⟩
        intro b hb
        rcases List.mem_cons.mp hb with rfl | hb'
        · exact h2
        · exact lt_trans h2 (hall b hb')
      · have h3 : k₀ < k := by omega
        simp only [mapInsert, if_neg h1, if_neg h2, List.map_cons, List.sorted_cons]
        refine ⟨?_, ih hm⟩
        intro b hb
        rcases (mapInsert_keys_mem k v m b).mp hb with rfl | hb'
        · exact h3
        · exact hall b hb'

/-- An absent key owns no values. -/
theorem groupOf_eq_nil (k : ℤ) (m : List (ℤ × List ℚ)) (h : k ∉ m.map Prod.fst) :
    groupOf k m = [] := by
  induction m with
  | nil => rfl
  | cons p m ih =>
    simp only [List.map_cons, List.mem_cons] at h
    push_neg at h
    have h1 : ¬ (p.1 = k) := fun hc => h.1 hc.symm
    simp only [groupOf, List.filterMap_cons, if_neg h1]
    exact ih h.2

/-- Reading a group at a matching head entry. -/
theorem groupOf_cons_self (k : ℤ) (g : List ℚ) (m : List (ℤ × List ℚ)) :
    groupOf k ((k, g) :: m) = g ++ groupOf k m := by
  simp [groupOf, List.filterMap_cons]

/-- Reading a group past a non-matching head entry. -/
theorem groupOf_cons_ne (k₀ k : ℤ) (g : List ℚ) (m : List (ℤ × List ℚ))
    (h : ¬ (k₀ = k)) :
    groupOf k ((k₀, g) :: m) = groupOf k m := by
  simp [groupOf, List.filterMap_cons, h]

/-- Effect of one `mapInsert` on each key's value list (over a strictly
key-sorted table): the inserted value is appended at the end of its own
key's group; all other groups are untouched. -/
theorem groupOf_mapInsert (k k' : ℤ) (v : ℚ) (m : List (ℤ × List ℚ))
    (hs : (m.map Prod.fst).Sorted (· < ·)) :
    groupOf k' (mapInsert k v m)
      = groupOf k' m ++ (if k = k' then [v] else []) := by
  induction m with
  | nil =>
    have hmi : mapInsert k v [] = [(k, [v])] := rfl
    by_cases h : k = k'
    · subst h
      rw [hmi, groupOf_cons_self]
      simp [groupOf]
    · rw [hmi, groupOf_cons_ne _ _ _ _ h]
      simp [groupOf, h]
  | cons p m ih =>
    obtain ⟨k₀, g⟩ := p
    simp only [List.map_cons, List.sorted_cons] at hs
    obtain ⟨hall, hm⟩ := hs
    by_cases h1 : k = k₀
    · subst h1
      have hnil : groupOf k m = [] := by
        apply groupOf_eq_nil
        intro hc
        exact absurd (hall k hc) (lt_irrefl k)
      simp only [mapInsert]
      rw [if_pos trivial]
      by_cases h : k = k'
      · subst h
        rw [groupOf_cons_self, groupOf_cons_self, hnil]
        simp
      · rw [groupOf_cons_ne _ _ _ _ h, groupOf_cons_ne _ _ _ _ h]
        simp [h]
    · by_cases h2 : k < k₀
      · have hnilc : groupOf k ((k₀, g) :: m) = [] := by
          apply groupOf_eq_nil
          simp only [List.map_cons, List.mem_cons]
          push_neg
          refine ⟨h1, fun hc => ?_⟩
          exact absurd (lt_trans h2 (hall k hc)) (lt_irrefl k)
        simp only [mapInsert]
        rw [if_neg h1, if_pos h2]
        by_cases h : k = k'
        · subst h
          rw [groupOf_cons_self, hnilc]
          simp
        · rw [groupOf_cons_ne _ _ _ _ h]
          simp [h]
      · have h3 : k₀ < k := by omega
        simp only [mapInsert]
        rw [if_neg h1, if_neg h2]
        by_cases h : k₀ = k'
        · subst h
          rw [groupOf_cons_self, ih hm, groupOf_cons_self]
          simp [h1]
        · rw [groupOf_cons_ne _ _ _ _ h, ih hm, groupOf_cons_ne _ _ _ _ h]

/-- Invariant of the grouping fold of `tapply3` over the (key, value)
stream: keys stay strictly sorted, the key set is the union of the old keys
and the scanned keys, and each key's group is the old group followed by the
scanned values carrying that key, in scan order. -/
theorem buildGroups_go (l : List (ℤ × ℚ)) :
    ∀ m : List (ℤ × List ℚ), (m.map Prod.fst).Sorted (· < ·) →
      ((l.foldl (fun m p => mapInsert p.1 p.2 m) m).map Prod.fst).Sorted (· < ·)
      ∧ (∀ a : ℤ, a ∈ (l.foldl (fun m p => mapInsert p.1 p.2 m) m).map Prod.fst
          ↔ a ∈ m.map Prod.fst ∨ a ∈ l.map Prod.fst)
      ∧ ∀ k : ℤ, groupOf k (l.foldl (fun m p => mapInsert p.1 p.2 m) m)
          = groupOf k m ++ l.filterMap (fun p => if p.1 = k then some p.2 else none) := by
  induction l with
  | nil =>
    intro m hs
    refine ⟨hs, fun a => by simp, fun k => by simp⟩
  | cons p l ih =>
    intro m hs
    obtain ⟨k₀, v₀⟩ := p
    simp only [List.foldl_cons]
    have hs' := mapInsert_keys_sorted k₀ v₀ m hs
    obtain ⟨ha, hb, hc⟩ := ih (mapInsert k₀ v₀ m) hs'
    refine ⟨ha, ?_, ?_⟩
    · intro a
      rw [hb a, mapInsert_keys_mem]
      simp only [List.map_cons, List.mem_cons]
      tauto
    · intro k
      rw [hc k, groupOf_mapInsert k₀ k v₀ m hs]
      simp only [List.filterMap_cons]
      by_cases h : k₀ = k
      · subst h
        simp
      · simp [h]

/--
C8: `tapply3` partitions the values stably by key — each key's group is
exactly the subsequence of values carrying that key, in original order —
keeps one group per distinct key of the key sequence, emits the groups in
strictly ascending key order, and applies the injected reduction once per
group in that order; concretely, grouping `[1,2,3,4]` by keys `[1,1,2,2]`
gives the table `{1 ↦ [1,2], 2 ↦ [3,4]}` and summing yields `[3, 7]`.
-/
theorem tapply3_grouped (x : List ℚ) (i : List ℤ) (f : List ℚ → ℚ)
    (h : i.length = x.length) :
    ((buildGroups (i.zip x)).map Prod.fst).Sorted (· < ·)
    ∧ (∀ k : ℤ, k ∈ (buildGroups (i.zip x)).map Prod.fst ↔ k ∈ i)
    ∧ (∀ k : ℤ, groupOf k (buildGroups (i.zip x))
        = (i.zip x).filterMap (fun p => if p.1 = k then some p.2 else none))
    ∧ tapply3 x i f = (buildGroups (i.zip x)).map (fun p => f p.2)
    ∧ tapply3 [1, 2, 3, 4] [1, 1, 2, 2] (fun l => l.sum) = [3, 7]
    ∧ buildGroups (([1, 1, 2, 2] : List ℤ).zip ([1, 2, 3, 4] : List ℚ))
        = [(1, [1, 2]), (2, [3, 4])] := by
  obtain ⟨ha, hb, hc⟩ := buildGroups_go (i.zip x) [] (by simp)
  refine ⟨ha, ?_, ?_, rfl, ?_, ?_⟩
  · intro k
    rw [buildGroups, hb k]
    have hz : (i.zip x).map Prod.fst = i := List.map_fst_zip i x (le_of_eq h)
    simp [hz]
  · intro k
    rw [buildGroups, hc k]
    rfl
  · norm_num [tapply3, buildGroups, mapInsert]
  · norm_num [buildGroups, mapInsert]

/-- Witness for C8 at the spec's concrete instance. -/
theorem tapply3_grouped_witness :
    tapply3 [1, 2, 3, 4] [1, 1, 2, 2] (fun l => l.sum) = [3, 7] :=
  (tapply3_grouped [1, 2, 3, 4] [1, 1, 2, 2] (fun l => l.sum) rfl).2.2.2.2.1

/-! ## Theorems: membership test equivalence (C10) -/

/-- The accumulator-based set construction preserves both duplicate-freeness
and the membership of its argument. -/
theorem setOfList_go (t : List ℚ) (s : List ℚ) (hnd : s.Nodup) :
    (t.foldl setInsertQ s).Nodup ∧
      ∀ v, v ∈ t.foldl setInsertQ s ↔ (v ∈ s ∨ v ∈ t) := by
  induction t generalizing s with
  | nil => simpa using hnd
  | cons a t ih =>
    simp only [List.foldl_cons]
    by_cases h : a ∈ s
    · have := ih s hnd
      simp only [setInsertQ, if_pos h]
      refine ⟨this.1, fun v => ?_⟩
      rw [(this.2 v)]
      constructor
      · rintro (hv | hv)
        · exact Or.inl hv
        · exact Or.inr (List.mem_cons_of_mem a hv)
      · rintro (hv | hv)
        · exact Or.inl hv
        · rcases List.mem_cons.mp hv with rfl | hv
          · exact Or.inl h
          · exact Or.inr hv
    · have hnd' : (s ++ [a]).Nodup := by
        simp [List.nodup_append, hnd, h]
      have := ih (s ++ [a]) hnd'
      simp only [setInsertQ, if_neg h]
      refine ⟨this.1, fun v => ?_⟩
      rw [(this.2 v)]
      simp only [List.mem_append, List.mem_singleton, List.mem_cons]
      tauto

/-- A duplicate-free list counts every element at most once, so `count = 1`
and `count ≠ 0` both coincide with membership. -/
theorem nodup_count_mem (s : List ℚ) (hnd : s.Nodup) (v : ℚ) :
    (decide (s.count v = 1) = decide (v ∈ s)) ∧
      (decide (s.count v ≠ 0) = decide (v ∈ s)) := by
  by_cases h : v ∈ s
  · have h1 : s.count v = 1 := by
      have := List.count_eq_one_of_mem hnd h
      simpa using this
    simp [h1, h]
  · have h0 : s.count v = 0 := by
      simpa using List.count_eq_zero_of_not_mem h
    simp [h0, h]

/--
C10: the three membership-test variants `in1`, `in2`, `in3` agree on every
pair of inputs, and all three compute, for each element of `x`, whether it
occurs anywhere in `table`.
-/
theorem in1_in2_in3_agree (x table : List ℚ) :
    in1 x table = in3 x table ∧ in2 x table = in3 x table ∧
      in3 x table = x.map (fun v => decide (v ∈ table)) := by
  obtain ⟨hnd, hmem⟩ := setOfList_go table [] List.nodup_nil
  refine ⟨?_, ?_, ?_⟩
  · unfold in1 in3
    apply List.map_congr_left
    intro v _
    exact (nodup_count_mem _ hnd v).1
  · unfold in2 in3
    apply List.map_congr_left
    intro v _
    exact (nodup_count_mem _ hnd v).2
  · unfold in3 setOfList
    apply List.map_congr_left
    intro v _
    have := hmem v
    simp only [List.not_mem_nil, false_or] at this
    simp [this]

end AdvR
